import Mathlib

/-!
Shallow embedding of `src/CustomHeadsetOpenVR/src/Distortion/RadialBezierDistortionProfile.cpp`.

The C++ code computes with `float`; here every numeric value is modelled by an
exact rational (`ℚ`).  Division by zero yields `0` in `ℚ`; every claim proved
below either excludes the degenerate inputs by hypothesis or is insensitive to
the value a degenerate division produces.  The two transcendental library
calls of the source, `tan` and `sqrt`, are handled as follows: `tan` is an
abstract parameter `tanF : ℚ → ℚ` of the operations that use it (no claim
depends on its values), and `sqrt` is modelled by `ratSqrt`, which agrees with
the real square root on every rational whose square root is rational — in
particular at `0`, the only point where a claim inspects it.
-/

/-- A calibration or derived sample: `RadialBezierDistortionProfile::DistortionPoint`
with fields `degree` (angular coordinate) and `position` (percent of screen half-size). -/
@[ext]
structure DistortionPoint where
  degree : ℚ
  position : ℚ
deriving DecidableEq

instance : Inhabited DistortionPoint := ⟨⟨0, 0⟩⟩

/-- The 2-D result type of `ComputeDistortion` (`Point2D` in the source). -/
structure Point2D where
  x : ℚ
  y : ℚ
deriving DecidableEq

/-- The eye selector of the OpenVR interface (`vr::EVREye`). -/
inductive EVREye where
  | Eye_Left
  | Eye_Right
deriving DecidableEq

/-- The color-channel selector used by `ComputeDistortion`. -/
inductive ColorChannel where
  | ColorChannelRed
  | ColorChannelGreen
  | ColorChannelBlue
deriving DecidableEq

/-- BezierPoint (source lines 6–25): a point of a cubic Bezier curve at parameter
`t`, Bernstein basis applied independently to the `degree` and `position` axes of
the four control points.  Out-of-range control-point access (impossible at every
call site, which always passes four points) is modelled by `getD` with default. -/
def BezierPoint (t : ℚ) (controlPoints : List DistortionPoint) : DistortionPoint :=
  let tSquared := t * t
  let oneMinusT := 1 - t
  let oneMinusTSquared := oneMinusT * oneMinusT
  { degree :=
      oneMinusT ^ 3 * (controlPoints.getD 0 default).degree +
      3 * oneMinusTSquared * t * (controlPoints.getD 1 default).degree +
      3 * oneMinusT * tSquared * (controlPoints.getD 2 default).degree +
      t ^ 3 * (controlPoints.getD 3 default).degree,
    position :=
      oneMinusT ^ 3 * (controlPoints.getD 0 default).position +
      3 * oneMinusTSquared * t * (controlPoints.getD 1 default).position +
      3 * oneMinusT * tSquared * (controlPoints.getD 2 default).position +
      t ^ 3 * (controlPoints.getD 3 default).position }

/-- Body of the outer loop of SmoothPoints (source lines 33–61) for loop index
`i`: the original point `points[i]` followed by the `innerPointCounts` generated
Bezier points of the segment from `points[i]` to `points[i+1]`.  In the source
the body is inlined in the loop; it is named here so the emitted segments can be
reasoned about one at a time.  Out-of-range indices (never reached when the
input has at least two points, as the guards of the source ensure) are modelled
by `getD` with default. -/
def smoothSegment (points : List DistortionPoint) (innerPointCounts : ℕ) (i : ℕ) :
    List DistortionPoint :=
  let n := points.length
  let smoothAmount : ℚ := 1 / 3
  let prevPoint := points.getD i default
  let nextPoint := points.getD (i + 1) default
  let prevPrevPoint := if i ≤ 0 then points.getD i default else points.getD (i - 1) default
  let nextNextPoint := if i ≥ n - 2 then points.getD (i + 1) default else points.getD (i + 2) default
  let fallbackSlope :=
    (nextPoint.position - prevPoint.position) / (nextPoint.degree - prevPoint.degree)
  let prevSlope :=
    if i ≤ 0 then fallbackSlope
    else (nextPoint.position - prevPrevPoint.position) / (nextPoint.degree - prevPrevPoint.degree)
  let nextSlope :=
    if i ≥ n - 2 then fallbackSlope
    else (nextNextPoint.position - prevPoint.position) / (nextNextPoint.degree - prevPoint.degree)
  let centerDistance := (nextPoint.degree - prevPoint.degree) * smoothAmount
  let centerFromPrev := centerDistance * prevSlope + prevPoint.position
  let centerFromNext := -centerDistance * nextSlope + nextPoint.position
  let controlPoints : List DistortionPoint :=
    [prevPoint,
     ⟨prevPoint.degree + centerDistance, centerFromPrev⟩,
     ⟨nextPoint.degree - centerDistance, centerFromNext⟩,
     nextPoint]
  prevPoint :: (List.range innerPointCounts).map
    (fun (j : ℕ) => BezierPoint (((j : ℚ) + 1) / ((innerPointCounts : ℚ) + 1)) controlPoints)

/-- SmoothPoints (source lines 28–64): insert `innerPointCounts` Bezier-generated
points between each adjacent pair of `points`, then append the final original
point. -/
def SmoothPoints (points : List DistortionPoint) (innerPointCounts : ℕ) :
    List DistortionPoint :=
  (List.range (points.length - 1)).flatMap (smoothSegment points innerPointCounts)
    ++ [points.getD (points.length - 1) default]

/-- lerp (source lines 67–69). -/
def lerp (a b t : ℚ) : ℚ :=
  a + t * (b - a)

/-- The bracketing loop of SampleFromPoints (source lines 74–80): scan adjacent
pairs and return the interpolated position of the first pair whose degrees
bracket `degree`, or `none` when no pair does. -/
def sampleScan : List DistortionPoint → ℚ → Option ℚ
  | p :: q :: rest, degree =>
    if p.degree ≤ degree ∧ degree ≤ q.degree then
      some (p.position + (degree - p.degree) / (q.degree - p.degree) * (q.position - p.position))
    else sampleScan (q :: rest) degree
  | _, _ => none

/-- SampleFromPoints (source lines 72–90): position sampled at `degree`; clamp
below the first point, linearly extrapolate along the last segment above the
last point. -/
def SampleFromPoints (points : List DistortionPoint) (degree : ℚ) : ℚ :=
  match sampleScan points degree with
  | some v => v
  | none =>
    if degree < (points.headD default).degree then
      (points.headD default).position
    else
      lerp (points.getD (points.length - 2) default).position
        (points.getD (points.length - 1) default).position
        ((degree - (points.getD (points.length - 2) default).degree) /
          ((points.getD (points.length - 1) default).degree -
            (points.getD (points.length - 2) default).degree))

/-- The bracketing loop of SampleFromPointsInverse (source lines 95–101),
bracketing on `position` and interpolating `degree`. -/
def sampleScanInverse : List DistortionPoint → ℚ → Option ℚ
  | p :: q :: rest, position =>
    if p.position ≤ position ∧ position ≤ q.position then
      some (p.degree + (position - p.position) / (q.position - p.position) * (q.degree - p.degree))
    else sampleScanInverse (q :: rest) position
  | _, _ => none

/-- SampleFromPointsInverse (source lines 93–111): degree sampled at `position`,
the axis-swapped mirror of SampleFromPoints. -/
def SampleFromPointsInverse (points : List DistortionPoint) (position : ℚ) : ℚ :=
  match sampleScanInverse points position with
  | some v => v
  | none =>
    if position < (points.headD default).position then
      (points.headD default).degree
    else
      lerp (points.getD (points.length - 2) default).degree
        (points.getD (points.length - 1) default).degree
        ((position - (points.getD (points.length - 2) default).position) /
          ((points.getD (points.length - 1) default).position -
            (points.getD (points.length - 2) default).position))

/-- The C cast `(int)(indexFloat)` of source line 117: truncation toward zero. -/
def ratTrunc (q : ℚ) : ℤ :=
  if 0 ≤ q then ⌊q⌋ else ⌈q⌉

/-- The clamped table index computed by SampleFromMap (source lines 116–122):
truncate `radius * radialMapConversion`, clamp negatives to `0` and indices at
or beyond `mapLength - 1` to `mapLength - 2`. -/
def sampleMapIndex (mapLength : ℕ) (radialMapConversion : ℚ) (radius : ℚ) : ℤ :=
  let indexFloat := radius * radialMapConversion
  let index := ratTrunc indexFloat
  if index < 0 then 0
  else if index ≥ (mapLength : ℤ) - 1 then (mapLength : ℤ) - 2
  else index

/-- SampleFromMap (source lines 115–124): linear interpolation between the two
table entries bracketing the scaled radius.  The table (a raw `float*` of
length `radialMapSize` in the source) is a `List ℚ`; reads are `getD`, so the
proved index bounds are exactly the in-boundedness of the source's accesses. -/
def SampleFromMap (map : List ℚ) (radialMapConversion : ℚ) (radius : ℚ) : ℚ :=
  let indexFloat := radius * radialMapConversion
  let index := sampleMapIndex map.length radialMapConversion radius
  lerp (map.getD index.toNat 0) (map.getD (index.toNat + 1) 0) (indexFloat - (index : ℚ))

/-- Model of the C runtime `sqrt` (used at source line 229): exact on every
rational whose square root is rational — in particular `ratSqrt 0 = 0` and
`ratSqrt q = 0` only if `q ≤ 0`, the two facts the claims below inspect. -/
def ratSqrt (q : ℚ) : ℚ :=
  (Nat.sqrt q.num.toNat : ℚ) / (Nat.sqrt q.den : ℚ)

/-- The `double` constant `M_PI` of the C runtime, exactly. -/
def mPI : ℚ :=
  884279719003555 / 281474976710656

/-- Engine state.  Modelled from the spec: the header
`RadialBezierDistortionProfile.h` is not among the source files; the fields are
those the `.cpp` reads and writes (three calibration curves, `resolution`,
`inBetweenPoints`, `radialMapSize`, the derived scalars `halfFov` and
`radialMapConversion`, and the three radial lookup tables, here lists that are
empty while unallocated). -/
structure RadialBezierDistortionProfile where
  distortions : List DistortionPoint
  distortionsRed : List DistortionPoint
  distortionsBlue : List DistortionPoint
  resolution : ℚ
  inBetweenPoints : ℕ
  radialMapSize : ℕ
  halfFov : ℚ
  radialMapConversion : ℚ
  radialUVMapR : List ℚ
  radialUVMapG : List ℚ
  radialUVMapB : List ℚ
deriving DecidableEq

/-- Cleanup (source lines 260–273): free the three lookup tables (freed tables
are modelled by empty lists). -/
def Cleanup (s : RadialBezierDistortionProfile) : RadialBezierDistortionProfile :=
  { s with radialUVMapR := [], radialUVMapG := [], radialUVMapB := [] }

/-- The chromatic-aberration correction loop of Initialize (source lines
142-146, the two `*=` statements): scale each position of the reference curve
by `offsetPercent/100 + 1`, the offset sampled from the offset curve at the
point's own degree. -/
def correctedCurve (reference offsetCurve : List DistortionPoint) : List DistortionPoint :=
  reference.map fun p =>
    ⟨p.degree, p.position * (SampleFromPoints offsetCurve p.degree / 100 + 1)⟩

/-- Initialize (source lines 132–210), with the diagnostic logging omitted:
smooth the three calibration curves, correct red/blue for chromatic aberration,
accumulate `halfFov` (note: the source folds `std::max` into the member
`halfFov` without resetting it first), convert degrees to normalized input
coordinates through `tan`, and bake the three radial lookup tables.  `tanF` is
the C runtime's `tan` (see the file comment). -/
def Initialize (tanF : ℚ → ℚ) (s : RadialBezierDistortionProfile) :
    RadialBezierDistortionProfile :=
  let s0 := Cleanup s
  let distortionsSmoothGreen := SmoothPoints s0.distortions s0.inBetweenPoints
  let distortionsRedPercent := SmoothPoints s0.distortionsRed s0.inBetweenPoints
  let distortionsBluePercent := SmoothPoints s0.distortionsBlue s0.inBetweenPoints
  let distortionsSmoothRed := correctedCurve distortionsSmoothGreen distortionsRedPercent
  let distortionsSmoothBlue := correctedCurve distortionsSmoothGreen distortionsBluePercent
  let halfFov := distortionsSmoothGreen.foldl (fun h p => max h p.degree) s0.halfFov
  let edgeTan := tanF (halfFov * mPI / 180)
  let toInput := fun (p : DistortionPoint) =>
    DistortionPoint.mk (tanF (p.degree * mPI / 180) / edgeTan) p.position
  let greenInput := distortionsSmoothGreen.map toInput
  let redInput := distortionsSmoothRed.map toInput
  let blueInput := distortionsSmoothBlue.map toInput
  let radialMapConversion : ℚ := (s0.radialMapSize : ℚ) / 1
  let radialUVMapR := (List.range s0.radialMapSize).map
    (fun (i : ℕ) => SampleFromPointsInverse redInput ((i : ℚ) / radialMapConversion * 100))
  let radialUVMapG := (List.range s0.radialMapSize).map
    (fun (i : ℕ) => SampleFromPointsInverse greenInput ((i : ℚ) / radialMapConversion * 100))
  let radialUVMapB := (List.range s0.radialMapSize).map
    (fun (i : ℕ) => SampleFromPointsInverse blueInput ((i : ℚ) / radialMapConversion * 100))
  { s0 with
    halfFov := halfFov
    radialMapConversion := radialMapConversion
    radialUVMapR := radialUVMapR
    radialUVMapG := radialUVMapG
    radialUVMapB := radialUVMapB }

/-- GetProjectionRaw (source lines 212–224): the returned tuple is
`(left, right, bottom, top)`, written through out-pointers in the source. -/
def GetProjectionRaw (tanF : ℚ → ℚ) (s : RadialBezierDistortionProfile)
    (_eEye : EVREye) : ℚ × ℚ × ℚ × ℚ :=
  let hFovHalf := s.halfFov
  let vFovHalf := s.halfFov
  let hFovHalfRad := hFovHalf * mPI / 180
  let vFovHalfRad := vFovHalf * mPI / 180
  (tanF (-hFovHalfRad), tanF hFovHalfRad, tanF (-vFovHalfRad), tanF vFovHalfRad)

/-- ComputeDistortion (source lines 226–258).  At zero radius the source's
`fU / radius` is the NaN `0/0`, detected by `unitU != unitU` and replaced by
`0`; in `ℚ` the division `0/0` is already `0`, and the explicit guard below
mirrors the source's fix (for finite inputs the source produces NaN direction
components exactly when the radius is zero). -/
def ComputeDistortion (s : RadialBezierDistortionProfile) (_eEye : EVREye)
    (colorChannel : ColorChannel) (fU fV : ℚ) : Point2D :=
  let radius := ratSqrt (fU * fU + fV * fV)
  let unitU := fU / radius
  let unitV := fV / radius
  let unitU := if radius = 0 then 0 else unitU
  let unitV := if radius = 0 then 0 else unitV
  let radius2 :=
    match colorChannel with
    | ColorChannel.ColorChannelRed => SampleFromMap s.radialUVMapR s.radialMapConversion radius
    | ColorChannel.ColorChannelGreen => SampleFromMap s.radialUVMapG s.radialMapConversion radius
    | ColorChannel.ColorChannelBlue => SampleFromMap s.radialUVMapB s.radialMapConversion radius
  { x := unitU * radius2, y := unitV * radius2 }

/-- The cubic Bernstein-basis combination of four control values, written as the
specification states it (one axis at a time). -/
def bernstein3 (t a b c d : ℚ) : ℚ :=
  (1 - t) ^ 3 * a + 3 * (1 - t) ^ 2 * t * b + 3 * (1 - t) * t ^ 2 * c + t ^ 3 * d

/-- Segment construction exactly as the specification words it (spec §4.1,
claim C3): control points `P0 = points[i]`,
`P1 = (P0.degree + g/3, P0.position + (g/3)·sPrev)`,
`P2 = (P3.degree - g/3, P3.position - (g/3)·sNext)`, `P3 = points[i+1]`, where
`g` is the pair's degree gap, `sPrev` the secant slope from `points[i-1]` to
`points[i+1]` (chord slope of the pair when `i = 0`) and `sNext` the secant
slope from `points[i]` to `points[i+2]` (chord slope when `i+1` is the last
index); the curve is evaluated at `t = (j+1)/(count+1)`. -/
def specSmoothSegment (points : List DistortionPoint) (count : ℕ) (i : ℕ) :
    List DistortionPoint :=
  let n := points.length
  let p0 := points.getD i default
  let p3 := points.getD (i + 1) default
  let g := p3.degree - p0.degree
  let chordSlope := (p3.position - p0.position) / (p3.degree - p0.degree)
  let sPrev :=
    if i = 0 then chordSlope
    else (p3.position - (points.getD (i - 1) default).position) /
      (p3.degree - (points.getD (i - 1) default).degree)
  let sNext :=
    if i + 1 = n - 1 then chordSlope
    else ((points.getD (i + 2) default).position - p0.position) /
      ((points.getD (i + 2) default).degree - p0.degree)
  let p1 : DistortionPoint := ⟨p0.degree + g / 3, p0.position + g / 3 * sPrev⟩
  let p2 : DistortionPoint := ⟨p3.degree - g / 3, p3.position - g / 3 * sNext⟩
  p0 :: (List.range count).map fun (j : ℕ) =>
    let t := ((j : ℚ) + 1) / ((count : ℚ) + 1)
    ⟨bernstein3 t p0.degree p1.degree p2.degree p3.degree,
     bernstein3 t p0.position p1.position p2.position p3.position⟩

/-- The smoothing operation as the specification words it: every original point
kept, `count` Bernstein-evaluated points inserted between each adjacent pair. -/
def specSmoothPoints (points : List DistortionPoint) (count : ℕ) : List DistortionPoint :=
  (List.range (points.length - 1)).flatMap (specSmoothSegment points count)
    ++ [points.getD (points.length - 1) default]

/-! ### Basic algebraic facts about the Bezier evaluation -/

lemma BezierPoint_degree (t : ℚ) (p0 p1 p2 p3 : DistortionPoint) :
    (BezierPoint t [p0, p1, p2, p3]).degree =
      bernstein3 t p0.degree p1.degree p2.degree p3.degree := by
  simp only [BezierPoint, bernstein3, List.getD_cons_zero, List.getD_cons_succ]
  ring

lemma BezierPoint_position (t : ℚ) (p0 p1 p2 p3 : DistortionPoint) :
    (BezierPoint t [p0, p1, p2, p3]).position =
      bernstein3 t p0.position p1.position p2.position p3.position := by
  simp only [BezierPoint, bernstein3, List.getD_cons_zero, List.getD_cons_succ]
  ring

lemma bernstein3_zero (a b c d : ℚ) : bernstein3 0 a b c d = a := by
  simp only [bernstein3]
  ring

lemma bernstein3_one (a b c d : ℚ) : bernstein3 1 a b c d = d := by
  simp only [bernstein3]
  ring

/-- Positivity of the divided difference of a cubic Bernstein combination with
strictly increasing control values: the quantity is
`(B(u) - B(s)) / (u - s)` written as a polynomial. -/
lemma bernstein3_divided_difference_pos (d1 d2 d3 s u : ℚ)
    (hd1 : 0 < d1) (hd2 : 0 < d2) (hd3 : 0 < d3)
    (hs0 : 0 ≤ s) (hs1 : s ≤ 1) (hu0 : 0 ≤ u) (hu1 : u ≤ 1) :
    0 < d1 * (3 - 3 * (s + u) + (s ^ 2 + s * u + u ^ 2)) +
        d2 * (3 * (s + u) - 2 * (s ^ 2 + s * u + u ^ 2)) +
        d3 * (s ^ 2 + s * u + u ^ 2) := by
  have hA : (0:ℚ) ≤ 3 - 3 * (s + u) + (s ^ 2 + s * u + u ^ 2) := by
    nlinarith [mul_nonneg (sub_nonneg.2 hs1) (sub_nonneg.2 hu1), sq_nonneg (1 - s),
      sq_nonneg (1 - u)]
  have hB : (0:ℚ) ≤ 3 * (s + u) - 2 * (s ^ 2 + s * u + u ^ 2) := by
    nlinarith [mul_nonneg hs0 (sub_nonneg.2 hs1), mul_nonneg hu0 (sub_nonneg.2 hu1),
      mul_nonneg (add_nonneg hs0 hu0) (by linarith : (0:ℚ) ≤ 2 - (s + u))]
  have hC : (0:ℚ) ≤ s ^ 2 + s * u + u ^ 2 := by
    nlinarith [mul_nonneg hs0 hu0, sq_nonneg s, sq_nonneg u]
  have hAC : (3/2 : ℚ) ≤ (3 - 3 * (s + u) + (s ^ 2 + s * u + u ^ 2)) +
      (s ^ 2 + s * u + u ^ 2) := by
    nlinarith [sq_nonneg (s + u - 1), sq_nonneg (s - u)]
  rcases le_or_lt (3 - 3 * (s + u) + (s ^ 2 + s * u + u ^ 2)) (3/4) with h | h
  · have hC34 : (3/4 : ℚ) ≤ s ^ 2 + s * u + u ^ 2 := by linarith
    have h3 := mul_le_mul_of_nonneg_left hC34 hd3.le
    nlinarith [mul_nonneg hd1.le hA, mul_nonneg hd2.le hB]
  · have h1 := mul_lt_mul_of_pos_left h hd1
    nlinarith [mul_nonneg hd2.le hB, mul_nonneg hd3.le hC]

/-- A cubic Bernstein combination with strictly increasing control values is
strictly increasing on `[0, 1]`. -/
lemma bernstein3_strictMonoOn (c0 c1 c2 c3 t1 t2 : ℚ)
    (h01 : c0 < c1) (h12 : c1 < c2) (h23 : c2 < c3)
    (ht0 : 0 ≤ t1) (ht : t1 < t2) (ht1 : t2 ≤ 1) :
    bernstein3 t1 c0 c1 c2 c3 < bernstein3 t2 c0 c1 c2 c3 := by
  have key : bernstein3 t2 c0 c1 c2 c3 - bernstein3 t1 c0 c1 c2 c3 =
      (t2 - t1) *
        ((c1 - c0) * (3 - 3 * (t1 + t2) + (t1 ^ 2 + t1 * t2 + t2 ^ 2)) +
         (c2 - c1) * (3 * (t1 + t2) - 2 * (t1 ^ 2 + t1 * t2 + t2 ^ 2)) +
         (c3 - c2) * (t1 ^ 2 + t1 * t2 + t2 ^ 2)) := by
    simp only [bernstein3]
    ring
  have hpos := bernstein3_divided_difference_pos (c1 - c0) (c2 - c1) (c3 - c2) t1 t2
    (by linarith) (by linarith) (by linarith) ht0 (by linarith) (by linarith) ht1
  nlinarith [mul_pos (sub_pos.2 ht) hpos]

/-! ### List index helpers -/

lemma getD_mem_of_lt {l : List DistortionPoint} {i : ℕ} (h : i < l.length) :
    l.getD i default ∈ l := by
  rw [List.getD_eq_getElem _ _ h]
  exact List.getElem_mem h

lemma chain'_getD_lt {l : List DistortionPoint} {f : DistortionPoint → ℚ}
    (h : List.Chain' (fun a b => f a < f b) l) {i j : ℕ} (hij : i < j) (hj : j < l.length) :
    f (l.getD i default) < f (l.getD j default) := by
  haveI : IsTrans DistortionPoint (fun a b => f a < f b) :=
    ⟨fun _ _ _ h1 h2 => lt_trans h1 h2⟩
  have hp : List.Pairwise (fun a b => f a < f b) l := (List.chain'_iff_pairwise).1 h
  have hi : i < l.length := lt_trans hij hj
  rw [List.getD_eq_getElem _ _ hi, List.getD_eq_getElem _ _ hj]
  exact (List.pairwise_iff_getElem).1 hp i j hi hj hij

/-! ### The shape of one smoothing segment -/

/-- A smoothing segment is the Bezier curve of its control points evaluated at
the `c + 1` parameters `k / (c+1)`, `k = 0 .. c` (the point at `k = 0` being
`points[i]` itself); only the two interior control points' positions depend on
the estimated slopes, so they are existentially quantified here. -/
lemma smoothSegment_shape (points : List DistortionPoint) (c i : ℕ) :
    ∃ y1 y2 : ℚ, smoothSegment points c i =
      (List.range (c + 1)).map fun (k : ℕ) =>
        BezierPoint ((k : ℚ) / ((c : ℚ) + 1))
          [points.getD i default,
           ⟨(points.getD i default).degree +
              ((points.getD (i + 1) default).degree - (points.getD i default).degree) * (1 / 3),
            y1⟩,
           ⟨(points.getD (i + 1) default).degree -
              ((points.getD (i + 1) default).degree - (points.getD i default).degree) * (1 / 3),
            y2⟩,
           points.getD (i + 1) default] := by
  simp only [smoothSegment]
  refine ⟨(((points.getD (i + 1) default).degree - (points.getD i default).degree) * (1 / 3) *
      if i ≤ 0 then
        ((points.getD (i + 1) default).position - (points.getD i default).position) /
          ((points.getD (i + 1) default).degree - (points.getD i default).degree)
      else
        ((points.getD (i + 1) default).position -
            (if i ≤ 0 then points.getD i default else points.getD (i - 1) default).position) /
          ((points.getD (i + 1) default).degree -
            (if i ≤ 0 then points.getD i default else points.getD (i - 1) default).degree)) +
      (points.getD i default).position,
    (-(((points.getD (i + 1) default).degree - (points.getD i default).degree) * (1 / 3)) *
      if i ≥ points.length - 2 then
        ((points.getD (i + 1) default).position - (points.getD i default).position) /
          ((points.getD (i + 1) default).degree - (points.getD i default).degree)
      else
        ((if i ≥ points.length - 2 then points.getD (i + 1) default
              else points.getD (i + 2) default).position -
            (points.getD i default).position) /
          ((if i ≥ points.length - 2 then points.getD (i + 1) default
              else points.getD (i + 2) default).degree -
            (points.getD i default).degree)) +
      (points.getD (i + 1) default).position, ?_⟩
  rw [List.range_succ_eq_map, List.map_cons, List.map_map]
  refine List.cons_eq_cons.mpr ⟨?hd, ?tl⟩
  case tl =>
    refine List.map_congr_left fun j _ => ?_
    rw [Function.comp_apply, show ((Nat.succ j : ℕ) : ℚ) = (j : ℚ) + 1 by push_cast; ring]
  case hd =>
    ext
    · rw [BezierPoint_degree, Nat.cast_zero, zero_div, bernstein3_zero]
    · rw [BezierPoint_position, Nat.cast_zero, zero_div, bernstein3_zero]

lemma smoothSegment_cons (points : List DistortionPoint) (c i : ℕ) :
    ∃ tail, smoothSegment points c i = points.getD i default :: tail :=
  ⟨_, rfl⟩

lemma smoothSegment_length (points : List DistortionPoint) (c i : ℕ) :
    (smoothSegment points c i).length = c + 1 := by
  simp [smoothSegment]

lemma smoothSegment_chain (points : List DistortionPoint) (c i : ℕ)
    (hPQ : (points.getD i default).degree < (points.getD (i + 1) default).degree) :
    List.Chain' (fun a b => a.degree < b.degree) (smoothSegment points c i) := by
  obtain ⟨y1, y2, hseg⟩ := smoothSegment_shape points c i
  rw [hseg, List.chain'_map, show c + 1 = Nat.succ c from rfl, List.chain'_range_succ]
  intro m hm
  rw [BezierPoint_degree, BezierPoint_degree]
  have hc1 : (0:ℚ) < (c : ℚ) + 1 := by positivity
  have hmc : ((Nat.succ m : ℕ) : ℚ) ≤ (c : ℚ) + 1 := by
    push_cast
    have : (m : ℚ) < (c : ℚ) := by exact_mod_cast hm
    linarith
  apply bernstein3_strictMonoOn
  · linarith
  · linarith
  · linarith
  · positivity
  · rw [div_lt_div_iff₀ hc1 hc1]
    have : (m : ℚ) < ((Nat.succ m : ℕ) : ℚ) := by push_cast; linarith
    nlinarith
  · rw [div_le_one hc1]
    exact hmc

lemma smoothSegment_degree_bounds (points : List DistortionPoint) (c i : ℕ)
    (hPQ : (points.getD i default).degree < (points.getD (i + 1) default).degree) :
    ∀ p ∈ smoothSegment points c i,
      (points.getD i default).degree ≤ p.degree ∧
        p.degree < (points.getD (i + 1) default).degree := by
  obtain ⟨y1, y2, hseg⟩ := smoothSegment_shape points c i
  rw [hseg]
  intro p hp
  rw [List.mem_map] at hp
  obtain ⟨k, hk, rfl⟩ := hp
  rw [List.mem_range] at hk
  rw [BezierPoint_degree]
  have hc1 : (0:ℚ) < (c : ℚ) + 1 := by positivity
  have htk0 : (0:ℚ) ≤ (k : ℚ) / ((c : ℚ) + 1) := by positivity
  have htk1 : (k : ℚ) / ((c : ℚ) + 1) < 1 := by
    rw [div_lt_one hc1]
    have : (k : ℚ) < (c : ℚ) + 1 := by exact_mod_cast hk
    exact this
  constructor
  · rcases Nat.eq_zero_or_pos k with rfl | hkpos
    · rw [Nat.cast_zero, zero_div, bernstein3_zero]
    · have hstep := bernstein3_strictMonoOn (points.getD i default).degree
        ((points.getD i default).degree +
          ((points.getD (i + 1) default).degree - (points.getD i default).degree) * (1 / 3))
        ((points.getD (i + 1) default).degree -
          ((points.getD (i + 1) default).degree - (points.getD i default).degree) * (1 / 3))
        (points.getD (i + 1) default).degree
        0 ((k : ℚ) / ((c : ℚ) + 1))
        (by linarith) (by linarith) (by linarith) le_rfl
        (by positivity) htk1.le
      rw [bernstein3_zero] at hstep
      exact hstep.le
  · have hstep := bernstein3_strictMonoOn (points.getD i default).degree
      ((points.getD i default).degree +
        ((points.getD (i + 1) default).degree - (points.getD i default).degree) * (1 / 3))
      ((points.getD (i + 1) default).degree -
        ((points.getD (i + 1) default).degree - (points.getD i default).degree) * (1 / 3))
      (points.getD (i + 1) default).degree
      ((k : ℚ) / ((c : ℚ) + 1)) 1
      (by linarith) (by linarith) (by linarith) htk0 htk1 le_rfl
    rw [bernstein3_one] at hstep
    exact hstep

/-- Monotonicity preservation: smoothing a strictly-increasing-in-degree
sequence of at least two points yields a strictly-increasing-in-degree
sequence. -/
lemma SmoothPoints_chain (points : List DistortionPoint) (c : ℕ)
    (hn : 2 ≤ points.length)
    (hmono : List.Chain' (fun a b => a.degree < b.degree) points) :
    List.Chain' (fun a b => a.degree < b.degree) (SmoothPoints points c) := by
  have hidx : ∀ i j : ℕ, i < j → j < points.length →
      (points.getD i default).degree < (points.getD j default).degree :=
    fun i j hij hj => chain'_getD_lt (f := fun p => p.degree) hmono hij hj
  unfold SmoothPoints
  refine List.Chain'.append ?_ (List.chain'_singleton _) ?_
  · rw [List.flatMap_def]
    have hne : [] ∉ (List.range (points.length - 1)).map (smoothSegment points c) := by
      intro hmem
      rw [List.mem_map] at hmem
      obtain ⟨i, _, hi⟩ := hmem
      have hlen := congrArg List.length hi
      rw [smoothSegment_length] at hlen
      simp at hlen
    rw [List.chain'_flatten hne]
    constructor
    · intro l hl
      rw [List.mem_map] at hl
      obtain ⟨i, hi, rfl⟩ := hl
      rw [List.mem_range] at hi
      exact smoothSegment_chain points c i (hidx i (i + 1) (Nat.lt_succ_self i) (by omega))
    · rw [List.chain'_map]
      rw [show points.length - 1 = Nat.succ (points.length - 2) by omega,
        List.chain'_range_succ]
      intro m hm x hx y hy
      obtain ⟨tail1, hcons1⟩ := smoothSegment_cons points c (Nat.succ m)
      rw [hcons1, List.head?_cons, Option.mem_some_iff] at hy
      subst hy
      have hx' : x ∈ smoothSegment points c m := by
        obtain ⟨hne', hxeq⟩ := List.mem_getLast?_eq_getLast hx
        rw [hxeq]
        exact List.getLast_mem hne'
      exact (smoothSegment_degree_bounds points c m
        (hidx m (m + 1) (Nat.lt_succ_self m) (by omega)) x hx').2
  · intro x hx y hy
    rw [List.head?_cons, Option.mem_some_iff] at hy
    subst hy
    have hx' : x ∈ (List.range (points.length - 1)).flatMap (smoothSegment points c) := by
      obtain ⟨hne', hxeq⟩ := List.mem_getLast?_eq_getLast hx
      rw [hxeq]
      exact List.getLast_mem hne'
    rw [List.mem_flatMap] at hx'
    obtain ⟨i, hi, hxi⟩ := hx'
    rw [List.mem_range] at hi
    have hb := (smoothSegment_degree_bounds points c i
      (hidx i (i + 1) (Nat.lt_succ_self i) (by omega)) x hxi).2
    rcases eq_or_lt_of_le (Nat.succ_le_of_lt hi) with heq | hlt
    · exact heq ▸ hb
    · exact lt_trans hb (hidx (i + 1) (points.length - 1) hlt (by omega))

/-! ### Structure of the smoothed list (length, membership, endpoints) -/

lemma SmoothPoints_length (points : List DistortionPoint) (c : ℕ) (hn : 1 ≤ points.length) :
    (SmoothPoints points c).length = points.length + (points.length - 1) * c := by
  unfold SmoothPoints
  rw [List.length_append, List.length_flatMap]
  have hmap : List.map (List.length ∘ smoothSegment points c) (List.range (points.length - 1)) =
      List.map (fun _ => c + 1) (List.range (points.length - 1)) :=
    List.map_congr_left fun i _ => by
      simp [Function.comp, smoothSegment_length]
  rw [hmap, List.map_const', List.sum_replicate, smul_eq_mul, List.length_range,
    List.length_singleton,
    show (points.length - 1) * (c + 1) = (points.length - 1) * c + (points.length - 1) by ring]
  generalize (points.length - 1) * c = K
  omega

lemma SmoothPoints_head (points : List DistortionPoint) (c : ℕ) (hn : 2 ≤ points.length) :
    (SmoothPoints points c).head? = some (points.getD 0 default) := by
  unfold SmoothPoints
  rw [show points.length - 1 = Nat.succ (points.length - 2) by omega, List.range_succ_eq_map]
  obtain ⟨tail0, hcons0⟩ := smoothSegment_cons points c 0
  rw [List.flatMap_cons, hcons0, List.cons_append, List.cons_append, List.head?_cons]

lemma SmoothPoints_getLast (points : List DistortionPoint) (c : ℕ) :
    (SmoothPoints points c).getLast? = some (points.getD (points.length - 1) default) := by
  unfold SmoothPoints
  exact List.getLast?_concat _

lemma SmoothPoints_mem (points : List DistortionPoint) (c : ℕ) :
    ∀ p ∈ points, p ∈ SmoothPoints points c := by
  intro p hp
  obtain ⟨i, hi, rfl⟩ := List.getElem_of_mem hp
  unfold SmoothPoints
  rcases eq_or_lt_of_le (Nat.succ_le_of_lt hi) with heq | hlt
  · apply List.mem_append_right
    rw [show points.length - 1 = i by omega, List.getD_eq_getElem _ _ hi]
    exact List.mem_singleton.mpr rfl
  · apply List.mem_append_left
    rw [List.mem_flatMap]
    refine ⟨i, by rw [List.mem_range]; omega, ?_⟩
    obtain ⟨tail, hcons⟩ := smoothSegment_cons points c i
    rw [hcons, List.getD_eq_getElem _ _ hi]
    exact List.mem_cons_self _ _

/-! ### The piecewise-linear sampler: scan characterization -/

lemma headD_eq_getD_zero (l : List DistortionPoint) : l.headD default = l.getD 0 default := by
  cases l <;> rfl

lemma sampleScan_none_of_lt (points : List DistortionPoint) (d : ℚ)
    (h : ∀ p ∈ points, d < p.degree) : sampleScan points d = none := by
  induction points with
  | nil => rfl
  | cons p rest ih =>
    cases rest with
    | nil => rfl
    | cons q rest' =>
      simp only [sampleScan]
      rw [if_neg fun hc => absurd hc.1 (not_le.2 (h p (List.mem_cons_self _ _)))]
      exact ih fun x hx => h x (List.mem_cons_of_mem p hx)

lemma sampleScan_none_of_gt (points : List DistortionPoint) (d : ℚ)
    (h : ∀ p ∈ points, p.degree < d) : sampleScan points d = none := by
  induction points with
  | nil => rfl
  | cons p rest ih =>
    cases rest with
    | nil => rfl
    | cons q rest' =>
      simp only [sampleScan]
      rw [if_neg fun hc => absurd hc.2
        (not_le.2 (h q (List.mem_cons_of_mem p (List.mem_cons_self _ _))))]
      exact ih fun x hx => h x (List.mem_cons_of_mem p hx)

lemma sampleScan_bracket (points : List DistortionPoint) (d : ℚ) (i : ℕ)
    (hmono : List.Chain' (fun a b => a.degree < b.degree) points)
    (hi : i + 1 < points.length)
    (h1 : (points.getD i default).degree ≤ d)
    (h2 : d ≤ (points.getD (i + 1) default).degree) :
    sampleScan points d = some
      ((points.getD i default).position +
        (d - (points.getD i default).degree) /
          ((points.getD (i + 1) default).degree - (points.getD i default).degree) *
          ((points.getD (i + 1) default).position - (points.getD i default).position)) := by
  induction points generalizing i with
  | nil => exact absurd hi (by simp)
  | cons p rest ih =>
    cases rest with
    | nil => exact absurd hi (by simp)
    | cons q rest' =>
      simp only [sampleScan]
      cases i with
      | zero =>
        simp only [List.getD_cons_zero, List.getD_cons_succ] at h1 h2 ⊢
        rw [if_pos ⟨h1, h2⟩]
      | succ k =>
        simp only [List.getD_cons_succ] at h1 h2 ⊢
        by_cases htest : p.degree ≤ d ∧ d ≤ q.degree
        · rw [if_pos htest]
          have hpq : p.degree < q.degree := hmono.rel_head
          cases k with
          | zero =>
            simp only [List.getD_cons_zero, List.getD_cons_succ] at h1 h2 ⊢
            have hd : d = q.degree := le_antisymm htest.2 h1
            have hne : q.degree - p.degree ≠ 0 := ne_of_gt (sub_pos.2 hpq)
            rw [hd]
            congr 1
            rw [sub_self, zero_div, zero_mul, add_zero, div_self hne, one_mul]
            ring
          | succ k' =>
            exfalso
            simp only [List.getD_cons_succ] at h1
            have hj : Nat.succ k' < (q :: rest').length := by
              simp only [List.length_cons] at hi ⊢
              omega
            have hq_lt := chain'_getD_lt (f := fun p => p.degree) hmono.tail
              (Nat.succ_pos k') hj
            simp only [List.getD_cons_zero, List.getD_cons_succ] at hq_lt
            exact absurd htest.2 (not_le.2 (lt_of_lt_of_le hq_lt h1))
        · rw [if_neg htest]
          exact ih k hmono.tail
            (by simp only [List.length_cons] at hi ⊢; omega) h1 h2

lemma SampleFromPoints_bracket (points : List DistortionPoint) (d : ℚ) (i : ℕ)
    (hmono : List.Chain' (fun a b => a.degree < b.degree) points)
    (hi : i + 1 < points.length)
    (h1 : (points.getD i default).degree ≤ d)
    (h2 : d ≤ (points.getD (i + 1) default).degree) :
    SampleFromPoints points d =
      (points.getD i default).position +
        (d - (points.getD i default).degree) /
          ((points.getD (i + 1) default).degree - (points.getD i default).degree) *
          ((points.getD (i + 1) default).position - (points.getD i default).position) := by
  unfold SampleFromPoints
  rw [sampleScan_bracket points d i hmono hi h1 h2]

lemma SampleFromPoints_below (points : List DistortionPoint) (d : ℚ)
    (hmono : List.Chain' (fun a b => a.degree < b.degree) points)
    (_hn : 1 ≤ points.length)
    (hd : d < (points.getD 0 default).degree) :
    SampleFromPoints points d = (points.getD 0 default).position := by
  have hnone : sampleScan points d = none := by
    apply sampleScan_none_of_lt
    intro p hp
    obtain ⟨j, hj, rfl⟩ := List.getElem_of_mem hp
    rcases Nat.eq_zero_or_pos j with rfl | hjpos
    · rw [← List.getD_eq_getElem _ default hj]
      exact hd
    · refine lt_trans hd ?_
      rw [← List.getD_eq_getElem _ default hj]
      exact chain'_getD_lt (f := fun p => p.degree) hmono hjpos hj
  unfold SampleFromPoints
  rw [hnone, headD_eq_getD_zero, if_pos hd]

lemma SampleFromPoints_above (points : List DistortionPoint) (d : ℚ)
    (hmono : List.Chain' (fun a b => a.degree < b.degree) points)
    (hn : 2 ≤ points.length)
    (hd : (points.getD (points.length - 1) default).degree < d) :
    SampleFromPoints points d =
      lerp (points.getD (points.length - 2) default).position
        (points.getD (points.length - 1) default).position
        ((d - (points.getD (points.length - 2) default).degree) /
          ((points.getD (points.length - 1) default).degree -
            (points.getD (points.length - 2) default).degree)) := by
  have hnone : sampleScan points d = none := by
    apply sampleScan_none_of_gt
    intro p hp
    obtain ⟨j, hj, rfl⟩ := List.getElem_of_mem hp
    rw [← List.getD_eq_getElem _ default hj]
    rcases eq_or_lt_of_le (Nat.le_sub_one_of_lt hj) with heq | hlt
    · rw [heq]
      exact hd
    · exact lt_trans (chain'_getD_lt (f := fun p => p.degree) hmono hlt (by omega)) hd
  unfold SampleFromPoints
  rw [hnone, headD_eq_getD_zero, if_neg (not_lt.2 ?_)]
  refine le_of_lt (lt_of_le_of_lt ?_ hd)
  rcases Nat.eq_zero_or_pos (points.length - 1) with h0 | hpos
  · omega
  · exact le_of_lt (chain'_getD_lt (f := fun p => p.degree) hmono hpos (by omega))

lemma exists_bracket (points : List DistortionPoint) (d : ℚ)
    (hn : 2 ≤ points.length)
    (h1 : (points.getD 0 default).degree ≤ d)
    (h2 : d ≤ (points.getD (points.length - 1) default).degree) :
    ∃ i, i + 1 < points.length ∧ (points.getD i default).degree ≤ d ∧
      d ≤ (points.getD (i + 1) default).degree := by
  induction points with
  | nil => exact absurd hn (by simp)
  | cons p rest ih =>
    cases rest with
    | nil => exact absurd hn (by simp)
    | cons q rest' =>
      by_cases hq : d ≤ q.degree
      · exact ⟨0, by simp, by simpa using h1, by simpa using hq⟩
      · cases rest' with
        | nil =>
          exfalso
          simp only [List.length_cons, List.getD_cons_succ, List.getD_cons_zero] at h2
          exact hq (by simpa using h2)
        | cons r rest'' =>
          have h2' : d ≤ ((q :: r :: rest'').getD ((q :: r :: rest'').length - 1) default).degree := by
            simp only [List.length_cons] at h2 ⊢
            simpa using h2
          obtain ⟨i, hi, hi1, hi2⟩ := ih (by simp) (le_of_lt (not_le.1 hq)) h2'
          exact ⟨i + 1, by simp only [List.length_cons] at hi ⊢; omega, by simpa using hi1,
            by simpa using hi2⟩

lemma sampleScanInverse_none_of_lt (points : List DistortionPoint) (v : ℚ)
    (h : ∀ p ∈ points, v < p.position) : sampleScanInverse points v = none := by
  induction points with
  | nil => rfl
  | cons p rest ih =>
    cases rest with
    | nil => rfl
    | cons q rest' =>
      simp only [sampleScanInverse]
      rw [if_neg fun hc => absurd hc.1 (not_le.2 (h p (List.mem_cons_self _ _)))]
      exact ih fun x hx => h x (List.mem_cons_of_mem p hx)

lemma sampleScanInverse_none_of_gt (points : List DistortionPoint) (v : ℚ)
    (h : ∀ p ∈ points, p.position < v) : sampleScanInverse points v = none := by
  induction points with
  | nil => rfl
  | cons p rest ih =>
    cases rest with
    | nil => rfl
    | cons q rest' =>
      simp only [sampleScanInverse]
      rw [if_neg fun hc => absurd hc.2
        (not_le.2 (h q (List.mem_cons_of_mem p (List.mem_cons_self _ _))))]
      exact ih fun x hx => h x (List.mem_cons_of_mem p hx)

lemma sampleScanInverse_bracket (points : List DistortionPoint) (v : ℚ) (i : ℕ)
    (hmono : List.Chain' (fun a b => a.position < b.position) points)
    (hi : i + 1 < points.length)
    (h1 : (points.getD i default).position ≤ v)
    (h2 : v ≤ (points.getD (i + 1) default).position) :
    sampleScanInverse points v = some
      ((points.getD i default).degree +
        (v - (points.getD i default).position) /
          ((points.getD (i + 1) default).position - (points.getD i default).position) *
          ((points.getD (i + 1) default).degree - (points.getD i default).degree)) := by
  induction points generalizing i with
  | nil => exact absurd hi (by simp)
  | cons p rest ih =>
    cases rest with
    | nil => exact absurd hi (by simp)
    | cons q rest' =>
      simp only [sampleScanInverse]
      cases i with
      | zero =>
        simp only [List.getD_cons_zero, List.getD_cons_succ] at h1 h2 ⊢
        rw [if_pos ⟨h1, h2⟩]
      | succ k =>
        simp only [List.getD_cons_succ] at h1 h2 ⊢
        by_cases htest : p.position ≤ v ∧ v ≤ q.position
        · rw [if_pos htest]
          have hpq : p.position < q.position := hmono.rel_head
          cases k with
          | zero =>
            simp only [List.getD_cons_zero, List.getD_cons_succ] at h1 h2 ⊢
            have hv : v = q.position := le_antisymm htest.2 h1
            have hne : q.position - p.position ≠ 0 := ne_of_gt (sub_pos.2 hpq)
            rw [hv]
            congr 1
            rw [sub_self, zero_div, zero_mul, add_zero, div_self hne, one_mul]
            ring
          | succ k' =>
            exfalso
            simp only [List.getD_cons_succ] at h1
            have hj : Nat.succ k' < (q :: rest').length := by
              simp only [List.length_cons] at hi ⊢
              omega
            have hq_lt := chain'_getD_lt (f := fun p => p.position) hmono.tail
              (Nat.succ_pos k') hj
            simp only [List.getD_cons_zero, List.getD_cons_succ] at hq_lt
            exact absurd htest.2 (not_le.2 (lt_of_lt_of_le hq_lt h1))
        · rw [if_neg htest]
          exact ih k hmono.tail
            (by simp only [List.length_cons] at hi ⊢; omega) h1 h2

lemma SampleFromPointsInverse_bracket (points : List DistortionPoint) (v : ℚ) (i : ℕ)
    (hmono : List.Chain' (fun a b => a.position < b.position) points)
    (hi : i + 1 < points.length)
    (h1 : (points.getD i default).position ≤ v)
    (h2 : v ≤ (points.getD (i + 1) default).position) :
    SampleFromPointsInverse points v =
      (points.getD i default).degree +
        (v - (points.getD i default).position) /
          ((points.getD (i + 1) default).position - (points.getD i default).position) *
          ((points.getD (i + 1) default).degree - (points.getD i default).degree) := by
  unfold SampleFromPointsInverse
  rw [sampleScanInverse_bracket points v i hmono hi h1 h2]

lemma SampleFromPointsInverse_below (points : List DistortionPoint) (v : ℚ)
    (hmono : List.Chain' (fun a b => a.position < b.position) points)
    (_hn : 1 ≤ points.length)
    (hv : v < (points.getD 0 default).position) :
    SampleFromPointsInverse points v = (points.getD 0 default).degree := by
  have hnone : sampleScanInverse points v = none := by
    apply sampleScanInverse_none_of_lt
    intro p hp
    obtain ⟨j, hj, rfl⟩ := List.getElem_of_mem hp
    rcases Nat.eq_zero_or_pos j with rfl | hjpos
    · rw [← List.getD_eq_getElem _ default hj]
      exact hv
    · refine lt_trans hv ?_
      rw [← List.getD_eq_getElem _ default hj]
      exact chain'_getD_lt (f := fun p => p.position) hmono hjpos hj
  unfold SampleFromPointsInverse
  rw [hnone, headD_eq_getD_zero, if_pos hv]

lemma SampleFromPointsInverse_above (points : List DistortionPoint) (v : ℚ)
    (hmono : List.Chain' (fun a b => a.position < b.position) points)
    (hn : 2 ≤ points.length)
    (hv : (points.getD (points.length - 1) default).position < v) :
    SampleFromPointsInverse points v =
      lerp (points.getD (points.length - 2) default).degree
        (points.getD (points.length - 1) default).degree
        ((v - (points.getD (points.length - 2) default).position) /
          ((points.getD (points.length - 1) default).position -
            (points.getD (points.length - 2) default).position)) := by
  have hnone : sampleScanInverse points v = none := by
    apply sampleScanInverse_none_of_gt
    intro p hp
    obtain ⟨j, hj, rfl⟩ := List.getElem_of_mem hp
    rw [← List.getD_eq_getElem _ default hj]
    rcases eq_or_lt_of_le (Nat.le_sub_one_of_lt hj) with heq | hlt
    · rw [heq]
      exact hv
    · exact lt_trans (chain'_getD_lt (f := fun p => p.position) hmono hlt (by omega)) hv
  unfold SampleFromPointsInverse
  rw [hnone, headD_eq_getD_zero, if_neg (not_lt.2 ?_)]
  refine le_of_lt (lt_of_le_of_lt ?_ hv)
  rcases Nat.eq_zero_or_pos (points.length - 1) with h0 | hpos
  · omega
  · exact le_of_lt (chain'_getD_lt (f := fun p => p.position) hmono hpos (by omega))

lemma exists_bracket_position (points : List DistortionPoint) (v : ℚ)
    (hn : 2 ≤ points.length)
    (h1 : (points.getD 0 default).position ≤ v)
    (h2 : v ≤ (points.getD (points.length - 1) default).position) :
    ∃ i, i + 1 < points.length ∧ (points.getD i default).position ≤ v ∧
      v ≤ (points.getD (i + 1) default).position := by
  induction points with
  | nil => exact absurd hn (by simp)
  | cons p rest ih =>
    cases rest with
    | nil => exact absurd hn (by simp)
    | cons q rest' =>
      by_cases hq : v ≤ q.position
      · exact ⟨0, by simp, by simpa using h1, by simpa using hq⟩
      · cases rest' with
        | nil =>
          exfalso
          simp only [List.length_cons, List.getD_cons_succ, List.getD_cons_zero] at h2
          exact hq (by simpa using h2)
        | cons r rest'' =>
          have h2' : v ≤ ((q :: r :: rest'').getD ((q :: r :: rest'').length - 1) default).position := by
            simp only [List.length_cons] at h2 ⊢
            simpa using h2
          obtain ⟨i, hi, hi1, hi2⟩ := ih (by simp) (le_of_lt (not_le.1 hq)) h2'
          exact ⟨i + 1, by simp only [List.length_cons] at hi ⊢; omega, by simpa using hi1,
            by simpa using hi2⟩

/-! ### Sampling a constant-position curve -/

lemma sampleScan_some_mem (points : List DistortionPoint) (d w : ℚ)
    (h : sampleScan points d = some w) :
    ∃ p ∈ points, ∃ q ∈ points,
      w = p.position + (d - p.degree) / (q.degree - p.degree) * (q.position - p.position) := by
  induction points with
  | nil => exact absurd h (by simp [sampleScan])
  | cons p rest ih =>
    cases rest with
    | nil => exact absurd h (by simp [sampleScan])
    | cons q rest' =>
      simp only [sampleScan] at h
      by_cases hc : p.degree ≤ d ∧ d ≤ q.degree
      · rw [if_pos hc] at h
        exact ⟨p, List.mem_cons_self _ _, q,
          List.mem_cons_of_mem p (List.mem_cons_self _ _), (Option.some_inj.1 h).symm⟩
      · rw [if_neg hc] at h
        obtain ⟨p', hp', q', hq', hw⟩ := ih h
        exact ⟨p', List.mem_cons_of_mem p hp', q', List.mem_cons_of_mem p hq', hw⟩

lemma SampleFromPoints_const (points : List DistortionPoint) (v d : ℚ)
    (hne : points ≠ []) (h : ∀ p ∈ points, p.position = v) :
    SampleFromPoints points d = v := by
  have hn : 1 ≤ points.length := List.length_pos.2 hne
  cases hscan : sampleScan points d with
  | some w =>
    unfold SampleFromPoints
    rw [hscan]
    obtain ⟨p, hp, q, hq, hw⟩ := sampleScan_some_mem points d w hscan
    rw [hw, h p hp, h q hq]
    ring
  | none =>
    unfold SampleFromPoints
    rw [hscan, headD_eq_getD_zero]
    by_cases hd : d < (points.getD 0 default).degree
    · rw [if_pos hd]
      exact h _ (getD_mem_of_lt hn)
    · rw [if_neg hd]
      rw [h _ (getD_mem_of_lt (show points.length - 2 < points.length by omega)),
        h _ (getD_mem_of_lt (show points.length - 1 < points.length by omega))]
      simp [lerp]

lemma bernstein3_const (t v : ℚ) : bernstein3 t v v v v = v := by
  simp only [bernstein3]
  ring

/-- Smoothing a curve whose positions are constantly `v` yields a curve whose
positions are constantly `v`. -/
lemma SmoothPoints_position_const (points : List DistortionPoint) (c : ℕ) (v : ℚ)
    (hne : points ≠ []) (h : ∀ p ∈ points, p.position = v) :
    ∀ p ∈ SmoothPoints points c, p.position = v := by
  intro x hx
  unfold SmoothPoints at hx
  rw [List.mem_append] at hx
  rcases hx with hx | hx
  · rw [List.mem_flatMap] at hx
    obtain ⟨i, hi, hxi⟩ := hx
    rw [List.mem_range] at hi
    have hP : (points.getD i default).position = v := h _ (getD_mem_of_lt (by omega))
    have hQ : (points.getD (i + 1) default).position = v := h _ (getD_mem_of_lt (by omega))
    have hPP : (if i ≤ 0 then points.getD i default else points.getD (i - 1) default).position
        = v := by
      split
      · exact hP
      · exact h _ (getD_mem_of_lt (by omega))
    have hNN : (if i ≥ points.length - 2 then points.getD (i + 1) default
        else points.getD (i + 2) default).position = v := by
      split
      · exact hQ
      · next hc => exact h _ (getD_mem_of_lt (by omega))
    simp only [smoothSegment, List.mem_cons, List.mem_map, List.mem_range] at hxi
    rcases hxi with rfl | ⟨j, hj, rfl⟩
    · exact hP
    · rw [BezierPoint_position, hP, hQ, hPP, hNN]
      simp only [sub_self, zero_div, ite_self, mul_zero, zero_add]
      exact bernstein3_const _ _
  · rw [List.mem_singleton] at hx
    subst hx
    have hpos : 0 < points.length := List.length_pos.2 hne
    exact h _ (getD_mem_of_lt (by omega))

/-! ### halfFov accumulation and the projection tuple -/

/-- The maximum `degree` occurring in a (nonempty) list of points. -/
def maxDegreeOf (l : List DistortionPoint) : ℚ :=
  l.foldl (fun m p => max m p.degree) ((l.headD default).degree)

lemma foldl_max_degree (l : List DistortionPoint) (a b : ℚ) :
    l.foldl (fun m p => max m p.degree) (max a b) =
      max a (l.foldl (fun m p => max m p.degree) b) := by
  induction l generalizing b with
  | nil => rfl
  | cons p rest ih =>
    simp only [List.foldl_cons]
    rw [max_assoc, ih]

lemma foldl_max_eq_max_maxDegreeOf (l : List DistortionPoint) (a : ℚ) (hne : l ≠ []) :
    l.foldl (fun m p => max m p.degree) a = max a (maxDegreeOf l) := by
  cases l with
  | nil => exact absurd rfl hne
  | cons p rest =>
    simp only [List.foldl_cons]
    rw [show max a p.degree = max a (max p.degree p.degree) by rw [max_self],
      foldl_max_degree]
    congr 1

lemma SmoothPoints_ne_nil (points : List DistortionPoint) (c : ℕ) :
    SmoothPoints points c ≠ [] := by
  simp [SmoothPoints]

/-- What Initialize actually does to `halfFov`: it folds `max` over the smoothed
green degrees starting from the PREVIOUS value of `halfFov`, which Cleanup does
not reset; the result is the maximum of the old value and the curve's maximum
degree. -/
lemma Initialize_halfFov (tanF : ℚ → ℚ) (s : RadialBezierDistortionProfile) :
    (Initialize tanF s).halfFov =
      max s.halfFov (maxDegreeOf (SmoothPoints s.distortions s.inBetweenPoints)) := by
  simp only [Initialize, Cleanup]
  exact foldl_max_eq_max_maxDegreeOf _ _ (SmoothPoints_ne_nil _ _)

lemma GetProjectionRaw_eq (tanF : ℚ → ℚ) (s : RadialBezierDistortionProfile) (eEye : EVREye) :
    GetProjectionRaw tanF s eEye =
      (tanF (-(s.halfFov * mPI / 180)), tanF (s.halfFov * mPI / 180),
       tanF (-(s.halfFov * mPI / 180)), tanF (s.halfFov * mPI / 180)) := rfl

/-! ### Table index clamping and the zero-radius case -/

lemma sampleMapIndex_bounds (mapLength : ℕ) (conv radius : ℚ) (h : 2 ≤ mapLength) :
    0 ≤ sampleMapIndex mapLength conv radius ∧
      sampleMapIndex mapLength conv radius ≤ (mapLength : ℤ) - 2 := by
  simp only [sampleMapIndex]
  split
  · omega
  · split
    · omega
    · next h1 h2 => omega

lemma ratSqrt_zero : ratSqrt 0 = 0 := by
  simp [ratSqrt]

lemma ComputeDistortion_zero (s : RadialBezierDistortionProfile) (eEye : EVREye)
    (ch : ColorChannel) : ComputeDistortion s eEye ch 0 0 = ⟨0, 0⟩ := by
  unfold ComputeDistortion
  rw [show (0:ℚ) * 0 + 0 * 0 = 0 by ring, ratSqrt_zero]
  simp

/-! ### The smoothing loop body agrees with the specification's wording -/

lemma smoothSegment_eq_spec (points : List DistortionPoint) (c i : ℕ)
    (hn : 2 ≤ points.length) (hi : i < points.length - 1) :
    smoothSegment points c i = specSmoothSegment points c i := by
  simp only [smoothSegment, specSmoothSegment]
  by_cases h0 : i = 0
  · by_cases h2 : i ≥ points.length - 2
    · simp only [if_pos (show i ≤ 0 by omega), if_pos h0, if_pos h2,
        if_pos (show i + 1 = points.length - 1 by omega)]
      refine congrArg (List.cons (points.getD i default)) ?_
      refine List.map_congr_left fun j _ => ?_
      refine DistortionPoint.ext ?_ ?_
      · rw [BezierPoint_degree]
        dsimp only
        simp only [bernstein3]
        ring
      · rw [BezierPoint_position]
        dsimp only
        simp only [bernstein3]
        ring
    · simp only [if_pos (show i ≤ 0 by omega), if_pos h0, if_neg h2,
        if_neg (show ¬(i + 1 = points.length - 1) by omega)]
      refine congrArg (List.cons (points.getD i default)) ?_
      refine List.map_congr_left fun j _ => ?_
      refine DistortionPoint.ext ?_ ?_
      · rw [BezierPoint_degree]
        dsimp only
        simp only [bernstein3]
        ring
      · rw [BezierPoint_position]
        dsimp only
        simp only [bernstein3]
        ring
  · by_cases h2 : i ≥ points.length - 2
    · simp only [if_neg (show ¬(i ≤ 0) by omega), if_neg h0, if_pos h2,
        if_pos (show i + 1 = points.length - 1 by omega)]
      refine congrArg (List.cons (points.getD i default)) ?_
      refine List.map_congr_left fun j _ => ?_
      refine DistortionPoint.ext ?_ ?_
      · rw [BezierPoint_degree]
        dsimp only
        simp only [bernstein3]
        ring
      · rw [BezierPoint_position]
        dsimp only
        simp only [bernstein3]
        ring
    · simp only [if_neg (show ¬(i ≤ 0) by omega), if_neg h0, if_neg h2,
        if_neg (show ¬(i + 1 = points.length - 1) by omega)]
      refine congrArg (List.cons (points.getD i default)) ?_
      refine List.map_congr_left fun j _ => ?_
      refine DistortionPoint.ext ?_ ?_
      · rw [BezierPoint_degree]
        dsimp only
        simp only [bernstein3]
        ring
      · rw [BezierPoint_position]
        dsimp only
        simp only [bernstein3]
        ring

lemma SmoothPoints_eq_spec (points : List DistortionPoint) (c : ℕ)
    (hn : 2 ≤ points.length) :
    SmoothPoints points c = specSmoothPoints points c := by
  unfold SmoothPoints specSmoothPoints
  refine congrArg (fun l => l ++ [points.getD (points.length - 1) default]) ?_
  rw [List.flatMap_def, List.flatMap_def]
  refine congrArg List.flatten ?_
  exact List.map_congr_left fun i hi =>
    smoothSegment_eq_spec points c i hn (List.mem_range.1 hi)

/-! ### Exact round-trip of the forward and inverse samplers -/

lemma roundtrip_degree (points : List DistortionPoint) (d : ℚ)
    (hdmono : List.Chain' (fun a b => a.degree < b.degree) points)
    (hpmono : List.Chain' (fun a b => a.position < b.position) points)
    (hn : 2 ≤ points.length)
    (hlow : (points.getD 0 default).degree < d)
    (hhigh : d < (points.getD (points.length - 1) default).degree) :
    SampleFromPointsInverse points (SampleFromPoints points d) = d := by
  obtain ⟨i, hi, h1, h2⟩ := exists_bracket points d hn (le_of_lt hlow) (le_of_lt hhigh)
  have hdd : (points.getD i default).degree < (points.getD (i + 1) default).degree :=
    chain'_getD_lt (f := fun p => p.degree) hdmono (Nat.lt_succ_self i) hi
  have hpp : (points.getD i default).position < (points.getD (i + 1) default).position :=
    chain'_getD_lt (f := fun p => p.position) hpmono (Nat.lt_succ_self i) hi
  have hv := SampleFromPoints_bracket points d i hdmono hi h1 h2
  have ht0 : 0 ≤ (d - (points.getD i default).degree) /
      ((points.getD (i + 1) default).degree - (points.getD i default).degree) :=
    div_nonneg (by linarith) (by linarith)
  have ht1 : (d - (points.getD i default).degree) /
      ((points.getD (i + 1) default).degree - (points.getD i default).degree) ≤ 1 := by
    rw [div_le_one (by linarith)]
    linarith
  have hvlow : (points.getD i default).position ≤ SampleFromPoints points d := by
    rw [hv]
    nlinarith [mul_nonneg ht0 (le_of_lt (sub_pos.2 hpp))]
  have hvhigh : SampleFromPoints points d ≤ (points.getD (i + 1) default).position := by
    rw [hv]
    nlinarith [mul_nonneg (sub_nonneg.2 ht1) (le_of_lt (sub_pos.2 hpp))]
  have hinv := SampleFromPointsInverse_bracket points (SampleFromPoints points d) i
    hpmono hi hvlow hvhigh
  have hΔp : (points.getD (i + 1) default).position - (points.getD i default).position ≠ 0 :=
    ne_of_gt (sub_pos.2 hpp)
  have hΔd : (points.getD (i + 1) default).degree - (points.getD i default).degree ≠ 0 :=
    ne_of_gt (sub_pos.2 hdd)
  rw [hinv, hv, add_sub_cancel_left, mul_div_cancel_right₀ _ hΔp, div_mul_cancel₀ _ hΔd]
  ring

lemma roundtrip_position (points : List DistortionPoint) (v : ℚ)
    (hdmono : List.Chain' (fun a b => a.degree < b.degree) points)
    (hpmono : List.Chain' (fun a b => a.position < b.position) points)
    (hn : 2 ≤ points.length)
    (hlow : (points.getD 0 default).position < v)
    (hhigh : v < (points.getD (points.length - 1) default).position) :
    SampleFromPoints points (SampleFromPointsInverse points v) = v := by
  obtain ⟨i, hi, h1, h2⟩ := exists_bracket_position points v hn (le_of_lt hlow) (le_of_lt hhigh)
  have hdd : (points.getD i default).degree < (points.getD (i + 1) default).degree :=
    chain'_getD_lt (f := fun p => p.degree) hdmono (Nat.lt_succ_self i) hi
  have hpp : (points.getD i default).position < (points.getD (i + 1) default).position :=
    chain'_getD_lt (f := fun p => p.position) hpmono (Nat.lt_succ_self i) hi
  have hv := SampleFromPointsInverse_bracket points v i hpmono hi h1 h2
  have ht0 : 0 ≤ (v - (points.getD i default).position) /
      ((points.getD (i + 1) default).position - (points.getD i default).position) :=
    div_nonneg (by linarith) (by linarith)
  have ht1 : (v - (points.getD i default).position) /
      ((points.getD (i + 1) default).position - (points.getD i default).position) ≤ 1 := by
    rw [div_le_one (by linarith)]
    linarith
  have hvlow : (points.getD i default).degree ≤ SampleFromPointsInverse points v := by
    rw [hv]
    nlinarith [mul_nonneg ht0 (le_of_lt (sub_pos.2 hdd))]
  have hvhigh : SampleFromPointsInverse points v ≤ (points.getD (i + 1) default).degree := by
    rw [hv]
    nlinarith [mul_nonneg (sub_nonneg.2 ht1) (le_of_lt (sub_pos.2 hdd))]
  have hfwd := SampleFromPoints_bracket points (SampleFromPointsInverse points v) i
    hdmono hi hvlow hvhigh
  have hΔp : (points.getD (i + 1) default).position - (points.getD i default).position ≠ 0 :=
    ne_of_gt (sub_pos.2 hpp)
  have hΔd : (points.getD (i + 1) default).degree - (points.getD i default).degree ≠ 0 :=
    ne_of_gt (sub_pos.2 hdd)
  rw [hfwd, hv, add_sub_cancel_left, mul_div_cancel_right₀ _ hΔd, div_mul_cancel₀ _ hΔp]
  ring

/-! ### Claim theorems -/

/-- C1 (amended): upon return from Initialize, `halfFov` equals the maximum of
its value before the call and the maximum degree value occurring in the
smoothed green curve (the source folds `std::max` into the member without
resetting it, so re-initialization can only grow `halfFov`); and
GetProjectionRaw writes `left = tan(-halfFov in radians)`,
`right = tan(halfFov in radians)` and the same symmetric pair for bottom/top,
identically for either eye. -/
theorem C1_halfFov_and_projection (tanF : ℚ → ℚ) (s : RadialBezierDistortionProfile) :
    (Initialize tanF s).halfFov =
      max s.halfFov (maxDegreeOf (SmoothPoints s.distortions s.inBetweenPoints)) ∧
    (∀ (s2 : RadialBezierDistortionProfile) (eEye : EVREye),
      GetProjectionRaw tanF s2 eEye =
        (tanF (-(s2.halfFov * mPI / 180)), tanF (s2.halfFov * mPI / 180),
         tanF (-(s2.halfFov * mPI / 180)), tanF (s2.halfFov * mPI / 180))) ∧
    (∀ s2 : RadialBezierDistortionProfile,
      GetProjectionRaw tanF s2 EVREye.Eye_Left = GetProjectionRaw tanF s2 EVREye.Eye_Right) :=
  ⟨Initialize_halfFov tanF s, fun s2 eEye => GetProjectionRaw_eq tanF s2 eEye, fun _ => rfl⟩

/-- A concrete engine state: green calibration up to 45 degrees, no inserted
points, no radial map entries. -/
def reinitStateA : RadialBezierDistortionProfile where
  distortions := [⟨0, 0⟩, ⟨45, 50⟩]
  distortionsRed := [⟨0, 0⟩, ⟨45, 0⟩]
  distortionsBlue := [⟨0, 0⟩, ⟨45, 0⟩]
  resolution := 2880
  inBetweenPoints := 0
  radialMapSize := 0
  halfFov := 0
  radialMapConversion := 0
  radialUVMapR := []
  radialUVMapG := []
  radialUVMapB := []

/-- The state on which Initialize is called a second time: the first
initialization ran on `reinitStateA` (whose widest green degree is 45), then
the profile was swapped for one whose widest green degree is 30. -/
def reinitStateB : RadialBezierDistortionProfile :=
  { Initialize (fun _ => 0) reinitStateA with distortions := [⟨0, 0⟩, ⟨30, 36⟩] }

/-- C1 (counterexample): on re-initialization after a previous Initialize, the
source does not reset `halfFov`, so with a previous 45-degree profile and a new
30-degree profile the returned `halfFov` is 45, not the maximum degree (30) of
the newly smoothed green curve. -/
theorem C1_counterexample :
    (Initialize (fun _ => 0) reinitStateB).halfFov ≠
      maxDegreeOf (SmoothPoints reinitStateB.distortions reinitStateB.inBetweenPoints) ∧
    (Initialize (fun _ => 0) reinitStateB).halfFov = 45 ∧
    maxDegreeOf (SmoothPoints reinitStateB.distortions reinitStateB.inBetweenPoints) = 30 := by
  have hd : reinitStateB.distortions = [⟨0, 0⟩, ⟨30, 36⟩] := rfl
  have hc : reinitStateB.inBetweenPoints = 0 := rfl
  have h30 : maxDegreeOf (SmoothPoints [(⟨0, 0⟩ : DistortionPoint), ⟨30, 36⟩] 0) = 30 := by
    norm_num [maxDegreeOf, SmoothPoints, smoothSegment, max_def, List.range_succ,
      List.range_zero, List.flatMap_cons, List.flatMap_nil, List.getD_cons_zero,
      List.getD_cons_succ]
  have hh : reinitStateB.halfFov = 45 := by
    show (Initialize (fun _ => 0) reinitStateA).halfFov = 45
    rw [Initialize_halfFov]
    norm_num [reinitStateA, maxDegreeOf, SmoothPoints, smoothSegment, max_def,
      List.range_succ, List.range_zero, List.flatMap_cons, List.flatMap_nil,
      List.getD_cons_zero, List.getD_cons_succ]
  have hfull : (Initialize (fun _ => 0) reinitStateB).halfFov = 45 := by
    rw [Initialize_halfFov, hd, hc, hh, h30, max_eq_left (by norm_num : (30:ℚ) ≤ 45)]
  refine ⟨?_, hfull, by rw [hd, hc]; exact h30⟩
  rw [hfull, hd, hc, h30]
  norm_num

/-- C2: each corrected red (or blue) position is the smoothed green position at
the same index scaled by `offset/100 + 1`, the offset sampled from the smoothed
offset curve at that point's own degree; with a constant `5`-percent offset
curve every corrected position is `1.05` times the green position. -/
theorem C2_chromatic_correction (green offsetRaw : List DistortionPoint) (c i : ℕ)
    (hi : i < (SmoothPoints green c).length) :
    ((correctedCurve (SmoothPoints green c) (SmoothPoints offsetRaw c)).getD i default).degree
        = ((SmoothPoints green c).getD i default).degree ∧
    ((correctedCurve (SmoothPoints green c) (SmoothPoints offsetRaw c)).getD i default).position
        = ((SmoothPoints green c).getD i default).position *
          (SampleFromPoints (SmoothPoints offsetRaw c)
            ((SmoothPoints green c).getD i default).degree / 100 + 1) ∧
    (offsetRaw ≠ [] → (∀ p ∈ offsetRaw, p.position = 5) →
      ((correctedCurve (SmoothPoints green c) (SmoothPoints offsetRaw c)).getD i default).position
        = 1.05 * ((SmoothPoints green c).getD i default).position) := by
  have hmap : (correctedCurve (SmoothPoints green c) (SmoothPoints offsetRaw c)).getD i default
      = ⟨((SmoothPoints green c).getD i default).degree,
         ((SmoothPoints green c).getD i default).position *
           (SampleFromPoints (SmoothPoints offsetRaw c)
             ((SmoothPoints green c).getD i default).degree / 100 + 1)⟩ := by
    unfold correctedCurve
    rw [List.getD_eq_getElem _ _ (by simpa using hi), List.getElem_map,
      List.getD_eq_getElem _ _ hi]
  refine ⟨by rw [hmap], by rw [hmap], fun hne hconst => ?_⟩
  rw [hmap]
  have h5 : SampleFromPoints (SmoothPoints offsetRaw c)
      ((SmoothPoints green c).getD i default).degree = 5 :=
    SampleFromPoints_const _ 5 _ (SmoothPoints_ne_nil _ _)
      (SmoothPoints_position_const offsetRaw c 5 hne hconst)
  rw [h5]
  norm_num
  ring

/-- C3: SmoothPoints computes exactly the construction the specification
describes — for each adjacent pair, the cubic Bezier through the pair with
interior control points extrapolated a third of the degree gap along the
next-nearest-neighbor secant slopes (chord slope at the boundaries), evaluated
at `t = (j+1)/(count+1)` by the Bernstein formula on each axis. -/
theorem C3_smoothing_matches_spec (points : List DistortionPoint) (c : ℕ)
    (hn : 2 ≤ points.length) :
    SmoothPoints points c = specSmoothPoints points c :=
  SmoothPoints_eq_spec points c hn

/-- C4: smoothing a sequence with strictly increasing degrees yields a sequence
with strictly increasing degrees. -/
theorem C4_monotonicity_preserved (points : List DistortionPoint) (c : ℕ)
    (hn : 2 ≤ points.length)
    (hmono : List.Pairwise (fun a b => a.degree < b.degree) points) :
    List.Pairwise (fun a b => a.degree < b.degree) (SmoothPoints points c) := by
  haveI : IsTrans DistortionPoint (fun a b => a.degree < b.degree) :=
    ⟨fun _ _ _ h1 h2 => lt_trans h1 h2⟩
  rw [← List.chain'_iff_pairwise] at hmono ⊢
  exact SmoothPoints_chain points c hn hmono

/-- C5: smoothing `n ≥ 2` points with `c` insertions per gap returns exactly
`n + (n-1)·c` points, contains every original point, and keeps the first and
last input points unchanged as its first and last elements. -/
theorem C5_length_membership_endpoints (points : List DistortionPoint) (c : ℕ)
    (hn : 2 ≤ points.length) :
    (SmoothPoints points c).length = points.length + (points.length - 1) * c ∧
    (∀ p ∈ points, p ∈ SmoothPoints points c) ∧
    (SmoothPoints points c).head? = some (points.getD 0 default) ∧
    (SmoothPoints points c).getLast? = some (points.getD (points.length - 1) default) :=
  ⟨SmoothPoints_length points c (by omega), SmoothPoints_mem points c,
   SmoothPoints_head points c hn, SmoothPoints_getLast points c⟩

lemma lerp_extrapolate (A B a b d : ℚ) (h : b - a ≠ 0) :
    lerp A B ((d - a) / (b - a)) = B + (B - A) / (b - a) * (d - b) := by
  unfold lerp
  field_simp
  ring

/-- C6: over a strictly monotone point list, sampling clamps to the first
position below the range, linearly interpolates on any bracketing segment, and
linearly extrapolates along the final segment's slope above the range; the
inverse sampler behaves symmetrically on the position axis. -/
theorem C6_sampling_behaviour (points : List DistortionPoint)
    (hn : 2 ≤ points.length)
    (hdmono : List.Chain' (fun a b => a.degree < b.degree) points)
    (hpmono : List.Chain' (fun a b => a.position < b.position) points) :
    (∀ d : ℚ, d < (points.getD 0 default).degree →
      SampleFromPoints points d = (points.getD 0 default).position) ∧
    (∀ (d : ℚ) (i : ℕ), i + 1 < points.length →
      (points.getD i default).degree ≤ d → d ≤ (points.getD (i + 1) default).degree →
      SampleFromPoints points d =
        lerp (points.getD i default).position (points.getD (i + 1) default).position
          ((d - (points.getD i default).degree) /
            ((points.getD (i + 1) default).degree - (points.getD i default).degree))) ∧
    (∀ d : ℚ, (points.getD (points.length - 1) default).degree < d →
      SampleFromPoints points d =
        (points.getD (points.length - 1) default).position +
          ((points.getD (points.length - 1) default).position -
              (points.getD (points.length - 2) default).position) /
            ((points.getD (points.length - 1) default).degree -
              (points.getD (points.length - 2) default).degree) *
            (d - (points.getD (points.length - 1) default).degree)) ∧
    (∀ v : ℚ, v < (points.getD 0 default).position →
      SampleFromPointsInverse points v = (points.getD 0 default).degree) ∧
    (∀ (v : ℚ) (i : ℕ), i + 1 < points.length →
      (points.getD i default).position ≤ v → v ≤ (points.getD (i + 1) default).position →
      SampleFromPointsInverse points v =
        lerp (points.getD i default).degree (points.getD (i + 1) default).degree
          ((v - (points.getD i default).position) /
            ((points.getD (i + 1) default).position - (points.getD i default).position))) ∧
    (∀ v : ℚ, (points.getD (points.length - 1) default).position < v →
      SampleFromPointsInverse points v =
        (points.getD (points.length - 1) default).degree +
          ((points.getD (points.length - 1) default).degree -
              (points.getD (points.length - 2) default).degree) /
            ((points.getD (points.length - 1) default).position -
              (points.getD (points.length - 2) default).position) *
            (v - (points.getD (points.length - 1) default).position)) := by
  have hlastd : (points.getD (points.length - 2) default).degree <
      (points.getD (points.length - 1) default).degree :=
    chain'_getD_lt (f := fun p => p.degree) hdmono (by omega) (by omega)
  have hlastp : (points.getD (points.length - 2) default).position <
      (points.getD (points.length - 1) default).position :=
    chain'_getD_lt (f := fun p => p.position) hpmono (by omega) (by omega)
  refine ⟨?_, ?_, ?_, ?_, ?_, ?_⟩
  · exact fun d hd => SampleFromPoints_below points d hdmono (by omega) hd
  · intro d i h h1 h2
    rw [SampleFromPoints_bracket points d i hdmono h h1 h2]
    rfl
  · intro d hd
    rw [SampleFromPoints_above points d hdmono hn hd,
      lerp_extrapolate _ _ _ _ _ (ne_of_gt (sub_pos.2 hlastd))]
  · exact fun v hv => SampleFromPointsInverse_below points v hpmono (by omega) hv
  · intro v i h h1 h2
    rw [SampleFromPointsInverse_bracket points v i hpmono h h1 h2]
    rfl
  · intro v hv
    rw [SampleFromPointsInverse_above points v hpmono hn hv,
      lerp_extrapolate _ _ _ _ _ (ne_of_gt (sub_pos.2 hlastp))]

/-- C7: the table index used by SampleFromMap is clamped into
`[0, tableSize-2]` for any radius whenever the table has at least two entries
(so only that entry and its successor, both within `[0, tableSize-1]`, are
read), and ComputeDistortion at `(0, 0)` returns `(0, 0)`, the zero-radius
`0/0` direction components being replaced by `0`. -/
theorem C7_table_bounds_and_zero_radius :
    (∀ (mapLength : ℕ) (conv radius : ℚ), 2 ≤ mapLength →
      0 ≤ sampleMapIndex mapLength conv radius ∧
        sampleMapIndex mapLength conv radius ≤ (mapLength : ℤ) - 2) ∧
    (∀ (s : RadialBezierDistortionProfile) (eEye : EVREye) (ch : ColorChannel),
      ComputeDistortion s eEye ch 0 0 = ⟨0, 0⟩) :=
  ⟨fun mapLength conv radius h => sampleMapIndex_bounds mapLength conv radius h,
   fun s eEye ch => ComputeDistortion_zero s eEye ch⟩

/-- C8: sampling at any knot degree returns that knot's position exactly,
including at the first and last points. -/
theorem C8_knot_agreement (points : List DistortionPoint)
    (hn : 2 ≤ points.length)
    (hdmono : List.Chain' (fun a b => a.degree < b.degree) points) :
    ∀ i < points.length,
      SampleFromPoints points (points.getD i default).degree
        = (points.getD i default).position := by
  intro i hi
  rcases Nat.lt_or_ge (i + 1) points.length with h | h
  · have hb := SampleFromPoints_bracket points (points.getD i default).degree i hdmono h
      le_rfl (le_of_lt (chain'_getD_lt (f := fun p => p.degree) hdmono (Nat.lt_succ_self i) h))
    rw [hb, sub_self, zero_div, zero_mul, add_zero]
  · have hieq : i = points.length - 1 := by omega
    subst hieq
    have he : points.length - 2 + 1 = points.length - 1 := by omega
    have hlt : (points.getD (points.length - 2) default).degree <
        (points.getD (points.length - 1) default).degree :=
      chain'_getD_lt (f := fun p => p.degree) hdmono (by omega) (by omega)
    have h2 : (points.getD (points.length - 1) default).degree ≤
        (points.getD (points.length - 2 + 1) default).degree := by
      rw [he]
    have hb := SampleFromPoints_bracket points (points.getD (points.length - 1) default).degree
      (points.length - 2) hdmono (by omega) (le_of_lt hlt) h2
    rw [he] at hb
    have hne : (points.getD (points.length - 1) default).degree -
        (points.getD (points.length - 2) default).degree ≠ 0 := ne_of_gt (sub_pos.2 hlt)
    rw [hb, div_self hne, one_mul]
    ring

/-- C9: for a curve strictly increasing in both axes, forward then inverse
sampling returns the original degree exactly for any degree strictly inside the
range, and inverse then forward sampling returns the original position exactly
for any position strictly inside the range. -/
theorem C9_roundtrip (points : List DistortionPoint)
    (hn : 2 ≤ points.length)
    (hdmono : List.Chain' (fun a b => a.degree < b.degree) points)
    (hpmono : List.Chain' (fun a b => a.position < b.position) points) :
    (∀ d : ℚ, (points.getD 0 default).degree < d →
      d < (points.getD (points.length - 1) default).degree →
      SampleFromPointsInverse points (SampleFromPoints points d) = d) ∧
    (∀ v : ℚ, (points.getD 0 default).position < v →
      v < (points.getD (points.length - 1) default).position →
      SampleFromPoints points (SampleFromPointsInverse points v) = v) :=
  ⟨fun d hlow hhigh => roundtrip_degree points d hdmono hpmono hn hlow hhigh,
   fun v hlow hhigh => roundtrip_position points v hdmono hpmono hn hlow hhigh⟩

/-- C10: the eye argument has no influence on ComputeDistortion — the left-eye
and right-eye results coincide for every state, channel and input. -/
theorem C10_eye_independent (s : RadialBezierDistortionProfile) (ch : ColorChannel)
    (fU fV : ℚ) :
    ComputeDistortion s EVREye.Eye_Left ch fU fV
      = ComputeDistortion s EVREye.Eye_Right ch fU fV := rfl

/-! ### Concrete witnesses -/

/-- The green calibration points of the spec's concrete scenario. -/
def samplePoints : List DistortionPoint :=
  [⟨0, 0⟩, ⟨10, 10⟩, ⟨20, 22⟩, ⟨30, 36⟩]

/-- A constant 5-percent offset curve over the same degree span. -/
def constantOffset5 : List DistortionPoint :=
  [⟨0, 5⟩, ⟨30, 5⟩]

/-- A two-point strictly increasing curve used to exercise the samplers. -/
def samplePair : List DistortionPoint :=
  [⟨0, 0⟩, ⟨10, 10⟩]

theorem C2_chromatic_correction_witness :
    1 < (SmoothPoints samplePoints 0).length ∧
    ((correctedCurve (SmoothPoints samplePoints 0) (SmoothPoints constantOffset5 0)).getD 1
        default).degree = ((SmoothPoints samplePoints 0).getD 1 default).degree ∧
    ((correctedCurve (SmoothPoints samplePoints 0) (SmoothPoints constantOffset5 0)).getD 1
        default).position
      = ((SmoothPoints samplePoints 0).getD 1 default).position *
        (SampleFromPoints (SmoothPoints constantOffset5 0)
          ((SmoothPoints samplePoints 0).getD 1 default).degree / 100 + 1) ∧
    ((correctedCurve (SmoothPoints samplePoints 0) (SmoothPoints constantOffset5 0)).getD 1
        default).position
      = 1.05 * ((SmoothPoints samplePoints 0).getD 1 default).position :=
  ⟨by norm_num [samplePoints, SmoothPoints, smoothSegment, List.range_succ, List.range_zero,
      List.flatMap_cons, List.flatMap_nil],
   (C2_chromatic_correction samplePoints constantOffset5 0 1
      (by norm_num [samplePoints, SmoothPoints, smoothSegment, List.range_succ, List.range_zero,
        List.flatMap_cons, List.flatMap_nil])).1,
   (C2_chromatic_correction samplePoints constantOffset5 0 1
      (by norm_num [samplePoints, SmoothPoints, smoothSegment, List.range_succ, List.range_zero,
        List.flatMap_cons, List.flatMap_nil])).2.1,
   (C2_chromatic_correction samplePoints constantOffset5 0 1
      (by norm_num [samplePoints, SmoothPoints, smoothSegment, List.range_succ, List.range_zero,
        List.flatMap_cons, List.flatMap_nil])).2.2
      (by exact List.cons_ne_nil _ _)
      (by norm_num [constantOffset5, List.forall_mem_cons])⟩

theorem C3_smoothing_matches_spec_witness :
    2 ≤ samplePoints.length ∧
    SmoothPoints samplePoints 1 = specSmoothPoints samplePoints 1 :=
  ⟨by norm_num [samplePoints],
   C3_smoothing_matches_spec samplePoints 1 (by norm_num [samplePoints])⟩

theorem C4_monotonicity_preserved_witness :
    (2 ≤ samplePoints.length ∧
      List.Pairwise (fun a b => a.degree < b.degree) samplePoints) ∧
    List.Pairwise (fun a b => a.degree < b.degree) (SmoothPoints samplePoints 1) :=
  ⟨⟨by norm_num [samplePoints], by norm_num [samplePoints, List.pairwise_cons]⟩,
   C4_monotonicity_preserved samplePoints 1 (by norm_num [samplePoints])
     (by norm_num [samplePoints, List.pairwise_cons])⟩

theorem C5_length_membership_endpoints_witness :
    2 ≤ samplePoints.length ∧
    (SmoothPoints samplePoints 1).length = samplePoints.length + (samplePoints.length - 1) * 1 ∧
    (⟨10, 10⟩ : DistortionPoint) ∈ SmoothPoints samplePoints 1 ∧
    (SmoothPoints samplePoints 1).head? = some (samplePoints.getD 0 default) ∧
    (SmoothPoints samplePoints 1).getLast?
      = some (samplePoints.getD (samplePoints.length - 1) default) :=
  ⟨by norm_num [samplePoints],
   (C5_length_membership_endpoints samplePoints 1 (by norm_num [samplePoints])).1,
   (C5_length_membership_endpoints samplePoints 1 (by norm_num [samplePoints])).2.1
     ⟨10, 10⟩ (by norm_num [samplePoints]),
   (C5_length_membership_endpoints samplePoints 1 (by norm_num [samplePoints])).2.2.1,
   (C5_length_membership_endpoints samplePoints 1 (by norm_num [samplePoints])).2.2.2⟩

theorem C6_sampling_behaviour_witness :
    (2 ≤ samplePair.length ∧
      List.Chain' (fun a b => a.degree < b.degree) samplePair ∧
      List.Chain' (fun a b => a.position < b.position) samplePair) ∧
    SampleFromPoints samplePair (-1) = (samplePair.getD 0 default).position ∧
    SampleFromPoints samplePair 5 =
      lerp (samplePair.getD 0 default).position (samplePair.getD (0 + 1) default).position
        ((5 - (samplePair.getD 0 default).degree) /
          ((samplePair.getD (0 + 1) default).degree - (samplePair.getD 0 default).degree)) ∧
    SampleFromPoints samplePair 20 =
      (samplePair.getD (samplePair.length - 1) default).position +
        ((samplePair.getD (samplePair.length - 1) default).position -
            (samplePair.getD (samplePair.length - 2) default).position) /
          ((samplePair.getD (samplePair.length - 1) default).degree -
            (samplePair.getD (samplePair.length - 2) default).degree) *
          (20 - (samplePair.getD (samplePair.length - 1) default).degree) ∧
    SampleFromPointsInverse samplePair (-1) = (samplePair.getD 0 default).degree ∧
    SampleFromPointsInverse samplePair 5 =
      lerp (samplePair.getD 0 default).degree (samplePair.getD (0 + 1) default).degree
        ((5 - (samplePair.getD 0 default).position) /
          ((samplePair.getD (0 + 1) default).position - (samplePair.getD 0 default).position)) ∧
    SampleFromPointsInverse samplePair 20 =
      (samplePair.getD (samplePair.length - 1) default).degree +
        ((samplePair.getD (samplePair.length - 1) default).degree -
            (samplePair.getD (samplePair.length - 2) default).degree) /
          ((samplePair.getD (samplePair.length - 1) default).position -
            (samplePair.getD (samplePair.length - 2) default).position) *
          (20 - (samplePair.getD (samplePair.length - 1) default).position) :=
  ⟨⟨by norm_num [samplePair], by norm_num [samplePair, List.chain'_cons],
      by norm_num [samplePair, List.chain'_cons]⟩,
   (C6_sampling_behaviour samplePair (by norm_num [samplePair])
      (by norm_num [samplePair, List.chain'_cons])
      (by norm_num [samplePair, List.chain'_cons])).1 (-1)
      (by norm_num [samplePair]),
   (C6_sampling_behaviour samplePair (by norm_num [samplePair])
      (by norm_num [samplePair, List.chain'_cons])
      (by norm_num [samplePair, List.chain'_cons])).2.1 5 0
      (by norm_num [samplePair]) (by norm_num [samplePair]) (by norm_num [samplePair]),
   (C6_sampling_behaviour samplePair (by norm_num [samplePair])
      (by norm_num [samplePair, List.chain'_cons])
      (by norm_num [samplePair, List.chain'_cons])).2.2.1 20
      (by norm_num [samplePair]),
   (C6_sampling_behaviour samplePair (by norm_num [samplePair])
      (by norm_num [samplePair, List.chain'_cons])
      (by norm_num [samplePair, List.chain'_cons])).2.2.2.1 (-1)
      (by norm_num [samplePair]),
   (C6_sampling_behaviour samplePair (by norm_num [samplePair])
      (by norm_num [samplePair, List.chain'_cons])
      (by norm_num [samplePair, List.chain'_cons])).2.2.2.2.1 5 0
      (by norm_num [samplePair]) (by norm_num [samplePair]) (by norm_num [samplePair]),
   (C6_sampling_behaviour samplePair (by norm_num [samplePair])
      (by norm_num [samplePair, List.chain'_cons])
      (by norm_num [samplePair, List.chain'_cons])).2.2.2.2.2 20
      (by norm_num [samplePair])⟩

theorem C7_table_bounds_and_zero_radius_witness :
    (0 ≤ sampleMapIndex 2 1 (7/3) ∧ sampleMapIndex 2 1 (7/3) ≤ ((2 : ℕ) : ℤ) - 2) ∧
    ComputeDistortion reinitStateA EVREye.Eye_Left ColorChannel.ColorChannelGreen 0 0
      = ⟨0, 0⟩ :=
  ⟨C7_table_bounds_and_zero_radius.1 2 1 (7/3) (by norm_num),
   C7_table_bounds_and_zero_radius.2 reinitStateA EVREye.Eye_Left
     ColorChannel.ColorChannelGreen⟩

theorem C8_knot_agreement_witness :
    (2 ≤ samplePair.length ∧
      List.Chain' (fun a b => a.degree < b.degree) samplePair) ∧
    SampleFromPoints samplePair ((samplePair.getD 1 default).degree)
      = (samplePair.getD 1 default).position :=
  ⟨⟨by norm_num [samplePair], by norm_num [samplePair, List.chain'_cons]⟩,
   C8_knot_agreement samplePair (by norm_num [samplePair])
     (by norm_num [samplePair, List.chain'_cons]) 1 (by norm_num [samplePair])⟩

theorem C9_roundtrip_witness :
    (2 ≤ samplePair.length ∧
      List.Chain' (fun a b => a.degree < b.degree) samplePair ∧
      List.Chain' (fun a b => a.position < b.position) samplePair) ∧
    SampleFromPointsInverse samplePair (SampleFromPoints samplePair 5) = 5 ∧
    SampleFromPoints samplePair (SampleFromPointsInverse samplePair 5) = 5 :=
  ⟨⟨by norm_num [samplePair], by norm_num [samplePair, List.chain'_cons],
      by norm_num [samplePair, List.chain'_cons]⟩,
   (C9_roundtrip samplePair (by norm_num [samplePair])
      (by norm_num [samplePair, List.chain'_cons])
      (by norm_num [samplePair, List.chain'_cons])).1 5
      (by norm_num [samplePair]) (by norm_num [samplePair]),
   (C9_roundtrip samplePair (by norm_num [samplePair])
      (by norm_num [samplePair, List.chain'_cons])
      (by norm_num [samplePair, List.chain'_cons])).2 5
      (by norm_num [samplePair]) (by norm_num [samplePair])⟩
